import Mathlib

/-!
Shallow embedding of the hindsight tracing system's core
(crates/hindsight-protocol and crates/hindsight-server), together with
theorems settling the specification claims about it.

Conventions of the embedding:
* Rust `u64` / `u8` values are `Nat` with explicit `% 2 ^ 64` (resp. bounds
  `< 256`) where overflow matters; `u64` subtraction is modelled with the
  release-mode wrapping semantics `(a + 2 ^ 64 - b) % 2 ^ 64`.
* `String` fields stay `String`; header parsing works on `List Char`
  (the character sequence of the Rust `&str`).
* `BTreeMap String AttributeValue` becomes an association list
  `List (String × AttributeValue)`; only `contains_key` and `get` are used
  by the code under study.
* `DashMap K V` becomes an association list with insert-overwrite; event
  publication becomes an append-only event log on the store state.
* Rust's stable `sort_by_key` becomes `List.insertionSort` on the same key:
  a stable sort's output is uniquely determined by its input, so any stable
  sort realizes it.
* The `f64` payload of `AttributeValue::Float` is carried opaquely as its
  bit pattern (a `Nat`); no code under study computes with it.
-/

/-! ### Hex codec (the `hex` crate as used by `TraceId` / `SpanId`) -/

/-- Value of one hex digit; the `hex` crate accepts both cases. -/
def hexDigitVal (c : Char) : Option Nat :=
  if '0' ≤ c ∧ c ≤ '9' then some (c.toNat - '0'.toNat)
  else if 'a' ≤ c ∧ c ≤ 'f' then some (c.toNat - 'a'.toNat + 10)
  else if 'A' ≤ c ∧ c ≤ 'F' then some (c.toNat - 'A'.toNat + 10)
  else none

/-- `hex::decode`: pairs of hex digits to bytes; fails on odd length or a
non-hex character. -/
def hexDecode : List Char → Option (List Nat)
  | [] => some []
  | [_] => none
  | c1 :: c2 :: rest =>
    match hexDigitVal c1, hexDigitVal c2, hexDecode rest with
    | some h, some l, some tail => some ((16 * h + l) :: tail)
    | _, _, _ => none

/-- Lower-case hex digit for a value `< 16` (as emitted by `hex::encode`
and by the `{:02x}` format). -/
def hexDigitLower (n : Nat) : Char :=
  if n < 10 then Char.ofNat ('0'.toNat + n) else Char.ofNat ('a'.toNat + (n - 10))

/-- `hex::encode` on a byte list: two lower-case digits per byte. -/
def hexEncode (bytes : List Nat) : List Char :=
  bytes.flatMap (fun b => [hexDigitLower (b / 16), hexDigitLower (b % 16)])

/-! ### Identifiers and trace context (`trace_context.rs`) -/

/-- 16-byte trace ID; the bytes are `Nat`s `< 256`. -/
structure TraceId where
  bytes : List Nat
deriving DecidableEq

/-- 8-byte span ID; the bytes are `Nat`s `< 256`. -/
structure SpanId where
  bytes : List Nat
deriving DecidableEq

/-- Decidable equality of `Except` results, for evaluating parse results
on concrete inputs. -/
instance exceptDecEq {ε α : Type} [DecidableEq ε] [DecidableEq α] :
    DecidableEq (Except ε α) := fun a b =>
  match a, b with
  | .error e, .error f =>
    if h : e = f then isTrue (by rw [h]) else isFalse (by simp [h])
  | .ok x, .ok y =>
    if h : x = y then isTrue (by rw [h]) else isFalse (by simp [h])
  | .error _, .ok _ => isFalse (by simp)
  | .ok _, .error _ => isFalse (by simp)

/-- `TraceContextError` from `trace_context.rs`. -/
inductive TraceContextError where
  | InvalidFormat
  | UnsupportedVersion
  | InvalidHex
  | InvalidLength
deriving DecidableEq

/-- `TraceId::from_hex`: exact length 32, then `hex::decode`. -/
def TraceId.from_hex (s : List Char) : Except TraceContextError TraceId :=
  if s.length ≠ 32 then .error .InvalidLength
  else match hexDecode s with
    | none => .error .InvalidHex
    | some b => .ok ⟨b⟩

/-- `TraceId::to_hex`. -/
def TraceId.to_hex (t : TraceId) : List Char := hexEncode t.bytes

/-- `SpanId::from_hex`: exact length 16, then `hex::decode`. -/
def SpanId.from_hex (s : List Char) : Except TraceContextError SpanId :=
  if s.length ≠ 16 then .error .InvalidLength
  else match hexDecode s with
    | none => .error .InvalidHex
    | some b => .ok ⟨b⟩

/-- `SpanId::to_hex`. -/
def SpanId.to_hex (t : SpanId) : List Char := hexEncode t.bytes

/-- `TraceContext` from `trace_context.rs`; `flags` is a `u8` (`< 256`). -/
structure TraceContext where
  trace_id : TraceId
  span_id : SpanId
  parent_span_id : Option SpanId
  flags : Nat
deriving DecidableEq

/-- `str::split('-')` on a character list: the groups between dashes,
including empty ones (splitting the empty string gives one empty group). -/
def splitOnDash : List Char → List (List Char)
  | [] => [[]]
  | c :: cs =>
    if c = '-' then [] :: splitOnDash cs
    else match splitOnDash cs with
      | [] => [[c]]
      | g :: gs => (c :: g) :: gs

/-- `u8::from_str_radix(s, 16)`: an optional leading `'+'`, then one or more
hex digits (either case), accumulated with overflow checked against the
`u8` range at every step. A `'-'` sign is rejected for unsigned targets. -/
def u8FromStrRadix16 (cs : List Char) : Option Nat :=
  let digits := match cs with
    | '+' :: rest => rest
    | other => other
  if digits.isEmpty then none
  else digits.foldl
    (fun acc c =>
      match acc, hexDigitVal c with
      | some a, some d => if 16 * a + d < 256 then some (16 * a + d) else none
      | _, _ => none)
    (some 0)

/-- `TraceContext::from_traceparent`: split on dashes into exactly four
fields; field 0 must be `"00"`; fields 1 and 2 are hex IDs; field 3 is a
hex `u8`. The parsed context always has `parent_span_id = none`. -/
def TraceContext.from_traceparent (header : List Char) :
    Except TraceContextError TraceContext :=
  match splitOnDash header with
  | [p0, p1, p2, p3] =>
    if p0 ≠ ['0', '0'] then .error .UnsupportedVersion
    else match TraceId.from_hex p1 with
      | .error e => .error e
      | .ok t =>
        match SpanId.from_hex p2 with
        | .error e => .error e
        | .ok s =>
          match u8FromStrRadix16 p3 with
          | none => .error .InvalidHex
          | some f => .ok ⟨t, s, none, f⟩
  | _ => .error .InvalidFormat

/-- `{:02x}` on a `u8`: two lower-case hex digits (a `u8` never needs
more than two). -/
def fmtHex02 (f : Nat) : List Char :=
  [hexDigitLower (f / 16), hexDigitLower (f % 16)]

/-- `TraceContext::to_traceparent`:
`format!("00-{}-{}-{:02x}", trace_id.to_hex(), span_id.to_hex(), flags)`. -/
def TraceContext.to_traceparent (c : TraceContext) : List Char :=
  ['0', '0', '-'] ++ c.trace_id.to_hex ++ ['-'] ++ c.span_id.to_hex
    ++ ['-'] ++ fmtHex02 c.flags

/-! ### Span and trace model (`span.rs`) -/

/-- Wrapping `u64` subtraction `a - b` (Rust release semantics); both
arguments are `u64` values, i.e. `< 2 ^ 64`. -/
def u64sub (a b : Nat) : Nat := (a + 2 ^ 64 - b) % 2 ^ 64

/-- `AttributeValue`; the `f64` payload is carried as its bit pattern. -/
inductive AttributeValue where
  | String (s : String)
  | Int (i : Int)
  | Float (bits : Nat)
  | Bool (b : Bool)
deriving DecidableEq

/-- `SpanEvent`: name, timestamp, attributes. -/
structure SpanEvent where
  name : String
  timestamp : Nat
  attributes : List (String × AttributeValue)
deriving DecidableEq

/-- `SpanStatus`. -/
inductive SpanStatus where
  | Ok
  | Error (message : String)
deriving DecidableEq

/-- `Span` from `span.rs`. -/
structure Span where
  trace_id : TraceId
  span_id : SpanId
  parent_span_id : Option SpanId
  name : String
  start_time : Nat
  end_time : Option Nat
  attributes : List (String × AttributeValue)
  events : List SpanEvent
  status : SpanStatus
  service_name : String
deriving DecidableEq

/-- `Span::duration_nanos`: `end_time.map(|end| end.0 - start_time.0)`,
the subtraction being `u64` subtraction. -/
def Span.duration_nanos (s : Span) : Option Nat :=
  s.end_time.map (fun e => u64sub e s.start_time)

/-- `Trace` from `span.rs`. -/
structure Trace where
  trace_id : TraceId
  spans : List Span
  root_span_id : SpanId
  start_time : Nat
  end_time : Option Nat
deriving DecidableEq

/-- The key order of `spans.sort_by_key(|s| s.start_time.0)`. -/
def spanLE (a b : Span) : Prop := a.start_time ≤ b.start_time

instance : DecidableRel spanLE := fun _ _ => Nat.decLe _ _

/-- Rust's stable `sort_by_key` on `start_time`: realized by insertion
sort, which produces the same (unique) stable-sorted output. -/
def sortSpans (spans : List Span) : List Span :=
  List.insertionSort spanLE spans

/-- `Trace::from_spans`: empty input gives `none`; otherwise sort stably by
`start_time`, take `trace_id` from the first sorted span, find the first
span without a parent (else `none`), and take the maximum `end_time`. -/
def Trace.from_spans (spans : List Span) : Option Trace :=
  match sortSpans spans with
  | [] => none
  | first :: rest =>
    match (first :: rest).find? (fun s => s.parent_span_id.isNone) with
    | none => none
    | some root =>
      some { trace_id := first.trace_id
             spans := first :: rest
             root_span_id := root.span_id
             start_time := root.start_time
             end_time := ((first :: rest).filterMap Span.end_time).max? }

/-- `BTreeMap::contains_key` on the association-list model. -/
def attrsContainsKey (attrs : List (String × AttributeValue)) (k : String) : Bool :=
  attrs.any (fun p => p.1 = k)

/-- `BTreeMap::get` on the association-list model. -/
def attrsGet (attrs : List (String × AttributeValue)) (k : String) :
    Option AttributeValue :=
  (attrs.find? (fun p => p.1 = k)).map (fun p => p.2)

/-- `TraceType`. -/
inductive TraceType where
  | Generic
  | Picante
  | Rapace
  | Dodeca
  | Mixed
deriving DecidableEq

/-- The per-span Picante check of `classify_type`:
`span.attributes.contains_key("picante.query")`. -/
def spanHasPicante (s : Span) : Bool :=
  attrsContainsKey s.attributes "picante.query"

/-- The per-span Rapace check of `classify_type`:
`attributes.get("rpc.system")` is a string equal to `"rapace"`. -/
def spanHasRapace (s : Span) : Bool :=
  match attrsGet s.attributes "rpc.system" with
  | some (AttributeValue.String v) => v = "rapace"
  | _ => false

/-- The per-span Dodeca check of `classify_type`:
`span.attributes.contains_key("dodeca.build")`. -/
def spanHasDodeca (s : Span) : Bool :=
  attrsContainsKey s.attributes "dodeca.build"

/-- `Trace::classify_type`: scan every span's attributes for the three
framework markers, then decide by how many were found. -/
def Trace.classify_type (tr : Trace) : TraceType :=
  let has_picante := tr.spans.any spanHasPicante
  let has_rapace := tr.spans.any spanHasRapace
  let has_dodeca := tr.spans.any spanHasDodeca
  let count := ((([has_picante, has_rapace, has_dodeca] : List Bool)).filter id).length
  match count with
  | 0 => TraceType.Generic
  | 1 =>
    if has_picante then TraceType.Picante
    else if has_rapace then TraceType.Rapace
    else TraceType.Dodeca
  | _ => TraceType.Mixed

/-- `TraceSummary`. -/
structure TraceSummary where
  trace_id : TraceId
  root_span_name : String
  service_name : String
  start_time : Nat
  duration_nanos : Option Nat
  span_count : Nat
  has_errors : Bool
  trace_type : TraceType
deriving DecidableEq

/-- `TraceFilter`. -/
structure TraceFilter where
  service : Option String := none
  min_duration_nanos : Option Nat := none
  max_duration_nanos : Option Nat := none
  has_errors : Option Bool := none
  limit : Option Nat := none

/-! ### Events (`events.rs`) -/

/-- `TraceEvent`: the live event stream items. -/
inductive TraceEvent where
  | TraceStarted (trace_id : TraceId) (root_span_name service_name : String)
  | TraceCompleted (trace_id : TraceId) (duration_nanos : Nat) (span_count : Nat)
  | SpanAdded (trace_id : TraceId) (span : Span)
deriving DecidableEq

/-! ### Trace store (`storage.rs`)

`DashMap` becomes an association list with unique keys and
insert-overwrite; `broadcast::Sender::send` becomes appending to an
event log carried in the state (every published event, in publish order,
as each subscriber would observe it up to the lossy buffer of
`broadcastBacklog` below). `StoredTrace::created_at` and the TTL sweeper
act on wall-clock time and are not needed by any claim, so the stored
value is the trace alone. -/

/-- Association-list lookup keyed by decidable equality
(`DashMap::get`). -/
def assocFind {K V : Type} [DecidableEq K] (k : K) :
    List (K × V) → Option V
  | [] => none
  | (k', v) :: rest => if k' = k then some v else assocFind k rest

/-- `DashMap::contains_key`. -/
def assocContains {K V : Type} [DecidableEq K] (k : K) (m : List (K × V)) : Bool :=
  (assocFind k m).isSome

/-- `DashMap::insert`: overwrite the entry for the key, keep the rest. -/
def assocInsert {K V : Type} [DecidableEq K] (k : K) (v : V) (m : List (K × V)) :
    List (K × V) :=
  (k, v) :: m.filter (fun p => p.1 ≠ k)

/-- The state of a `TraceStore`: the two maps plus the log of published
events. -/
structure StoreState where
  spans : List (SpanId × Span)
  traces : List (TraceId × Trace)
  events : List TraceEvent
deriving DecidableEq

/-- A freshly created store (`TraceStore::new`): empty maps, no events
published yet. -/
def emptyStore : StoreState := ⟨[], [], []⟩

/-- The argument passed to `broadcast::channel` in `TraceStore::new`. -/
def eventChannelArg : Nat := 1000

/-- Modelled from the spec: the per-subscriber buffer capacity of the
`tokio::sync::broadcast` channel (an external dependency, not part of this
repository). The channel rounds the requested capacity — 1000 at the call
site in `TraceStore::new` — up to the next power of two for its ring
buffer, so each subscriber's view holds 1024 events, as the spec states
(§4.3: "a fixed-capacity ring buffer of size 1024 per subscriber view"). -/
def eventChannelCapacity : Nat := 1024

/-- The span collection at the top of `TraceStore::update_trace`: every
stored span with the given `trace_id`. -/
def collectSpans (st : StoreState) (trace_id : TraceId) : List Span :=
  (st.spans.filter (fun p => p.2.trace_id = trace_id)).map (fun p => p.2)

/-- The `TraceCompleted` publication of `update_trace`: one event when the
rebuilt trace is complete (its `end_time` is set and every span has
ended), nothing otherwise. -/
def completedEvents (trace_id : TraceId) (trace : Trace) : List TraceEvent :=
  if trace.end_time.isSome && trace.spans.all (fun s => s.end_time.isSome) then
    match trace.end_time with
    | some e =>
      [TraceEvent.TraceCompleted trace_id (u64sub e trace.start_time)
        trace.spans.length]
    | none => []
  else []

/-- `TraceStore::update_trace`: collect every stored span with the given
`trace_id`, rebuild the trace; when the rebuild succeeds, publish
`TraceCompleted` if the trace is complete, and store the trace. -/
def updateTrace (st : StoreState) (trace_id : TraceId) : StoreState :=
  if (collectSpans st trace_id).isEmpty then st
  else match Trace.from_spans (collectSpans st trace_id) with
    | none => st
    | some trace =>
      { st with
        events := st.events ++ completedEvents trace_id trace
        traces := assocInsert trace_id trace st.traces }

/-- The `TraceStarted` publication of the ingest loop: one event when the
span is parentless and its `span_id` is not yet stored. -/
def startedEvents (st : StoreState) (span : Span) : List TraceEvent :=
  if span.parent_span_id.isNone && !(assocContains span.span_id st.spans) then
    [TraceEvent.TraceStarted span.trace_id span.name span.service_name]
  else []

/-- One iteration of the loop body of `TraceStore::ingest` for a single
span: detect a new trace, publish `TraceStarted` / `SpanAdded`, insert the
span, and rebuild the affected trace. -/
def ingestSpan (st : StoreState) (span : Span) : StoreState :=
  updateTrace
    { st with
      events := st.events ++ startedEvents st span
        ++ [TraceEvent.SpanAdded span.trace_id span]
      spans := assocInsert span.span_id span st.spans }
    span.trace_id

/-- `TraceStore::ingest`: process the spans in order; the returned count is
the input length as a `u32`. -/
def TraceStore.ingest (st : StoreState) (spans : List Span) : StoreState × Nat :=
  (spans.foldl ingestSpan st, spans.length % 2 ^ 32)

/-- `TraceStore::get_trace`. -/
def TraceStore.get_trace (st : StoreState) (trace_id : TraceId) : Option Trace :=
  assocFind trace_id st.traces

/-! ### RPC service (`service_impl.rs`) -/

/-- `HindsightServiceImpl::ingest_spans`: drop every span whose
`service_name` is `"hindsight-server"`, then ingest the remainder; the
store's count is what the RPC returns. -/
def ingest_spans (st : StoreState) (spans : List Span) : StoreState × Nat :=
  TraceStore.ingest st (spans.filter (fun s => s.service_name ≠ "hindsight-server"))

/-- A sequence of `ingest_spans` calls, in order (the resulting store). -/
def ingestAll (st : StoreState) (batches : List (List Span)) : StoreState :=
  batches.foldl (fun s b => (TraceStore.ingest s b).1) st

/-! ### Event broadcaster buffer

Modelled from the spec: the per-subscriber view of the
`tokio::sync::broadcast` channel created in `TraceStore::new` (the channel
implementation is an external dependency, not part of this repository).
Publishing appends to the subscriber's pending buffer; when the buffer
would exceed the capacity, the oldest pending events are dropped.
Publishing is a total function: it never blocks. -/
def broadcastPush (cap : Nat) (buf : List TraceEvent) (e : TraceEvent) :
    List TraceEvent :=
  let b := buf ++ [e]
  if b.length ≤ cap then b else b.drop (b.length - cap)

/-- Modelled from the spec: the pending buffer a subscriber that consumed
nothing observes after the events `evs` were published, with per-subscriber
capacity `cap`. -/
def broadcastBacklog (cap : Nat) (evs : List TraceEvent) : List TraceEvent :=
  evs.foldl (broadcastPush cap) []

/-! ### Concrete example data used by counterexamples and witnesses -/

/-- A 16-byte trace ID used by the concrete scenarios. -/
def exTraceId : TraceId := ⟨[0, 0, 0, 0, 0, 0, 0, 0, 0, 0, 0, 0, 0, 0, 0, 1]⟩

/-- Root span ID for the concrete scenarios. -/
def exRootId : SpanId := ⟨[0, 0, 0, 0, 0, 0, 0, 1]⟩

/-- Child span ID for the concrete scenarios. -/
def exChildId : SpanId := ⟨[0, 0, 0, 0, 0, 0, 0, 2]⟩

/-- Build a plain span with the given identity, timing and service. -/
def mkSpan (tid : TraceId) (sid : SpanId) (par : Option SpanId)
    (st : Nat) (en : Option Nat) (svc : String) : Span :=
  { trace_id := tid, span_id := sid, parent_span_id := par, name := "op"
    start_time := st, end_time := en, attributes := [], events := []
    status := SpanStatus.Ok, service_name := svc }

/-- A finished root span of the example trace. -/
def exRootSpan : Span := mkSpan exTraceId exRootId none 0 (some 10) "api"

/-- A finished child span of the example trace. -/
def exChildSpan : Span := mkSpan exTraceId exChildId (some exRootId) 1 (some 5) "api"

/-- Is the event a `TraceCompleted` for this trace? -/
def isCompletedFor (tid : TraceId) : TraceEvent → Bool
  | TraceEvent.TraceCompleted t _ _ => t = tid
  | _ => false

/-- Three self-originated spans plus the two example spans: the scenario of
seed §8(e): 3 spans with `service_name = "hindsight-server"`, 2 others. -/
def exFiveSpans : List Span :=
  [ mkSpan exTraceId ⟨[9, 0, 0, 0, 0, 0, 0, 1]⟩ none 0 (some 1) "hindsight-server"
  , mkSpan exTraceId ⟨[9, 0, 0, 0, 0, 0, 0, 2]⟩ none 0 (some 1) "hindsight-server"
  , mkSpan exTraceId ⟨[9, 0, 0, 0, 0, 0, 0, 3]⟩ none 0 (some 1) "hindsight-server"
  , exRootSpan, exChildSpan ]

/-! ### Shared helper lemmas -/

theorem assocFind_mem {K V : Type} [DecidableEq K] {k : K} {v : V} :
    ∀ {m : List (K × V)}, assocFind k m = some v → (k, v) ∈ m := by
  intro m
  induction m with
  | nil => intro h; simp [assocFind] at h
  | cons p rest ih =>
    obtain ⟨k', v'⟩ := p
    intro h
    by_cases hk : k' = k
    · subst hk
      simp [assocFind] at h
      simp [h]
    · simp [assocFind, hk] at h
      exact List.mem_cons_of_mem _ (ih h)

theorem mem_assocInsert {K V : Type} [DecidableEq K] {k : K} {v : V}
    {p : K × V} {m : List (K × V)} (h : p ∈ assocInsert k v m) :
    p = (k, v) ∨ p ∈ m := by
  unfold assocInsert at h
  rcases List.mem_cons.mp h with h1 | h1
  · exact Or.inl h1
  · exact Or.inr (List.mem_filter.mp h1).1

theorem assocFind_filter_ne {K V : Type} [DecidableEq K] {k k' : K}
    (h : k' ≠ k) :
    ∀ m : List (K × V),
      assocFind k (m.filter (fun p => p.1 ≠ k')) = assocFind k m := by
  intro m
  induction m with
  | nil => rfl
  | cons p rest ih =>
    obtain ⟨k0, v0⟩ := p
    simp only [ne_eq, decide_not] at ih ⊢
    by_cases h0 : k0 = k'
    · subst h0
      have hne : k0 ≠ k := h
      simp [List.filter_cons, assocFind, hne, ih]
    · by_cases hk : k0 = k
      · subst hk
        simp [List.filter_cons, assocFind, h0]
      · simp [List.filter_cons, assocFind, h0, hk, ih]

theorem assocFind_insert_ne {K V : Type} [DecidableEq K] {k k' : K} (v : V)
    (m : List (K × V)) (h : k' ≠ k) :
    assocFind k (assocInsert k' v m) = assocFind k m := by
  unfold assocInsert
  rw [show assocFind k ((k', v) :: m.filter (fun p => p.1 ≠ k'))
      = assocFind k (m.filter (fun p => p.1 ≠ k')) by simp [assocFind, h]]
  exact assocFind_filter_ne h m

theorem mem_sortSpans {s : Span} {l : List Span} :
    s ∈ sortSpans l ↔ s ∈ l :=
  (List.perm_insertionSort spanLE l).mem_iff

theorem sortSpans_perm (l : List Span) : (sortSpans l).Perm l :=
  List.perm_insertionSort spanLE l

theorem find?_eq_head?_filter {α : Type} (p : α → Bool) :
    ∀ l : List α, l.find? p = (l.filter p).head? := by
  intro l
  induction l with
  | nil => rfl
  | cons a rest ih =>
    by_cases h : p a
    · rw [List.find?_cons_of_pos _ h, List.filter_cons_of_pos h]
      rfl
    · rw [List.find?_cons_of_neg _ h, List.filter_cons_of_neg h]
      exact ih

theorem length_filter_not {α : Type} (p : α → Bool) :
    ∀ l : List α,
      (l.filter (fun a => !(p a))).length = l.length - (l.filter p).length := by
  intro l
  induction l with
  | nil => rfl
  | cons a rest ih =>
    have hle := List.length_filter_le p rest
    by_cases h : p a
    · simp only [List.filter_cons, h, Bool.not_true, Bool.false_eq_true,
        if_false, if_true, List.length_cons]
      omega
    · simp only [List.filter_cons, h, Bool.not_false, Bool.false_eq_true,
        if_false, if_true, List.length_cons]
      omega

/-! ### Claim C3: broadcaster buffer capacity -/

theorem broadcastPush_eq (cap : Nat) (buf : List TraceEvent) (e : TraceEvent) :
    broadcastPush cap buf e
      = (buf ++ [e]).drop ((buf ++ [e]).length - cap) := by
  show (if (buf ++ [e]).length ≤ cap then buf ++ [e]
      else (buf ++ [e]).drop ((buf ++ [e]).length - cap))
    = (buf ++ [e]).drop ((buf ++ [e]).length - cap)
  by_cases h : (buf ++ [e]).length ≤ cap
  · rw [if_pos h, Nat.sub_eq_zero_of_le h, List.drop_zero]
  · rw [if_neg h]

theorem broadcastPush_foldl (cap : Nat) :
    ∀ (evs buf : List TraceEvent), buf.length ≤ cap →
      evs.foldl (broadcastPush cap) buf
        = (buf ++ evs).drop ((buf ++ evs).length - cap) := by
  intro evs
  induction evs with
  | nil =>
    intro buf h
    simp [Nat.sub_eq_zero_of_le h]
  | cons e rest ih =>
    intro buf h
    rw [List.foldl_cons, broadcastPush_eq]
    have hlen : ((buf ++ [e]).drop ((buf ++ [e]).length - cap)).length ≤ cap := by
      simp only [List.length_drop]
      omega
    rw [ih _ hlen]
    have hd : (buf ++ [e]).length - cap ≤ (buf ++ [e]).length := Nat.sub_le _ _
    have hsplit : List.drop ((buf ++ [e]).length - cap) ((buf ++ [e]) ++ rest)
        = List.drop ((buf ++ [e]).length - cap) (buf ++ [e]) ++ rest := by
      rw [List.drop_append_eq_append_drop, Nat.sub_eq_zero_of_le hd,
        List.drop_zero]
    rw [← hsplit, List.drop_drop]
    have hBR : (buf ++ [e]) ++ rest = buf ++ e :: rest := by simp
    rw [hBR]
    congr 1
    simp only [List.length_drop, List.length_append, List.length_cons,
      List.length_nil]
    omega

/-- C3: the per-subscriber buffer holds exactly 1024 events: the channel
argument 1000 is rounded up to the next power of two (1024 is the smallest
power of two at least 1000). Publishing is total (never blocks); the
backlog after `n` published events is the newest `min(n, 1024)` of them,
so a subscriber lagging by at most 1024 events loses nothing and beyond
that bound exactly the oldest events are dropped. -/
theorem C3_buffer_1024 :
    eventChannelCapacity = 1024 ∧
    (eventChannelArg ≤ eventChannelCapacity ∧
      eventChannelCapacity < 2 * eventChannelArg ∧
      ∃ k, eventChannelCapacity = 2 ^ k) ∧
    (∀ evs : List TraceEvent,
      broadcastBacklog eventChannelCapacity evs
        = evs.drop (evs.length - eventChannelCapacity)) ∧
    (∀ evs : List TraceEvent, evs.length ≤ eventChannelCapacity →
      broadcastBacklog eventChannelCapacity evs = evs) := by
  have hmain : ∀ evs : List TraceEvent,
      broadcastBacklog eventChannelCapacity evs
        = evs.drop (evs.length - eventChannelCapacity) := by
    intro evs
    have h := broadcastPush_foldl eventChannelCapacity evs []
      (by simp [eventChannelCapacity])
    simpa [broadcastBacklog] using h
  refine ⟨rfl, ⟨by decide, by decide, 10, by decide⟩, hmain, ?_⟩
  intro evs h
  rw [hmain evs, Nat.sub_eq_zero_of_le h, List.drop_zero]

/-- Witness for `C3_buffer_1024` at a concrete short event list. -/
theorem C3_buffer_1024_witness :
    (List.replicate 3 (TraceEvent.TraceStarted exTraceId "op" "api")).length
        ≤ eventChannelCapacity ∧
    broadcastBacklog eventChannelCapacity
        (List.replicate 3 (TraceEvent.TraceStarted exTraceId "op" "api"))
      = List.replicate 3 (TraceEvent.TraceStarted exTraceId "op" "api") := by
  refine ⟨by decide, ?_⟩
  exact C3_buffer_1024.2.2.2 _ (by decide)

/-! ### Claim C7: span duration -/

/-- A span whose `end_time` precedes its `start_time` (nothing in ingest
forbids it). -/
def exWrapSpan : Span := mkSpan exTraceId exRootId none 5 (some 3) "api"

/-- C7 counterexample: on a span with `start_time = 5` and
`end_time = some 3`, `duration_nanos` wraps around to `2 ^ 64 - 2`; the
exact difference `3 - 5` is negative, so the result is not the exact
non-wrapping difference the claim asserts. -/
theorem C7_duration_wrap_cx :
    exWrapSpan.duration_nanos = some (2 ^ 64 - 2) ∧
    ((2 ^ 64 - 2 : Int) ≠ (3 : Int) - (5 : Int)) := by
  constructor
  · decide
  · decide

/-- C7 (amended): `duration_nanos` is `none` when `end_time` is absent, and
equals the exact difference `end_time - start_time` whenever
`start_time ≤ end_time` (with `end_time` in `u64` range); when
`end_time < start_time` the `u64` subtraction wraps (debug builds panic)
— wrap-around is possible, contrary to the claim. -/
theorem C7_duration_exact (s : Span) :
    (s.end_time = none → s.duration_nanos = none) ∧
    (∀ e, s.end_time = some e → s.start_time ≤ e → e < 2 ^ 64 →
      s.duration_nanos = some (e - s.start_time) ∧
      (((e - s.start_time : Nat) : Int) = (e : Int) - (s.start_time : Int))) := by
  constructor
  · intro h
    simp [Span.duration_nanos, h]
  · intro e he hle hlt
    refine ⟨?_, Nat.cast_sub hle⟩
    have hu : u64sub e s.start_time = e - s.start_time := by
      unfold u64sub
      omega
    simp [Span.duration_nanos, he, hu]

/-- Witness for `C7_duration_exact` at the example root span. -/
theorem C7_duration_exact_witness :
    exRootSpan.end_time = some 10 ∧ exRootSpan.start_time ≤ 10 ∧
    (10 : Nat) < 2 ^ 64 ∧ exRootSpan.duration_nanos = some 10 := by
  refine ⟨rfl, by decide, by norm_num, ?_⟩
  have h := (C7_duration_exact exRootSpan).2 10 rfl (by decide) (by norm_num)
  simpa using h.1

/-! ### Claim C1: ingest count -/

/-- C1 counterexample: ingesting 3 spans with
`service_name = "hindsight-server"` and 2 with another service returns 2,
not 5 — the count is taken after the self-tracing filter. -/
theorem C1_count_cx :
    (ingest_spans emptyStore exFiveSpans).2 = 2 ∧ (2 : Nat) ≠ 5 := by
  constructor
  · decide
  · decide

/-- C1 (amended): `ingest_spans` returns the post-filter count — the input
length minus the number of spans whose `service_name` is
`"hindsight-server"` (as a `u32`); in the 3 + 2 scenario it returns 2 and
the store then holds exactly 2 spans. -/
theorem C1_count_post_filter :
    (∀ (st : StoreState) (spans : List Span),
      (ingest_spans st spans).2
        = (spans.length
            - (spans.filter
                (fun s => s.service_name = "hindsight-server")).length)
          % 2 ^ 32) ∧
    (ingest_spans emptyStore exFiveSpans).2 = 2 ∧
    (ingest_spans emptyStore exFiveSpans).1.spans.length = 2 := by
  refine ⟨?_, by decide, by decide⟩
  intro st spans
  show (spans.filter (fun s => s.service_name ≠ "hindsight-server")).length % 2 ^ 32
      = _
  congr 1
  have h := length_filter_not (fun s => s.service_name = "hindsight-server") spans
  simpa [ne_eq, decide_not] using h

/-! ### Claim C8: trace classification -/

/-- A span whose only attribute key merely starts with `"picante.query"`
without being equal to it. -/
def exPicantePrefixSpan : Span :=
  { mkSpan exTraceId exRootId none 0 (some 10) "api" with
    attributes := [("picante.query.limit", AttributeValue.Int 5)] }

/-- A one-span trace around `exPicantePrefixSpan`. -/
def exPicantePrefixTrace : Trace :=
  { trace_id := exTraceId, spans := [exPicantePrefixSpan]
    root_span_id := exRootId, start_time := 0, end_time := some 10 }

/-- C8 counterexample: a trace whose span carries the attribute key
`"picante.query.limit"` — which starts with `"picante.query"` but is not
equal to it — classifies as `Generic`, not `Picante`: the code tests
exact key equality (`contains_key`), not a prefix. -/
theorem C8_classify_cx :
    exPicantePrefixTrace.classify_type = TraceType.Generic ∧
    "picante.query.limit" = "picante.query" ++ ".limit" ∧
    exPicantePrefixTrace.classify_type ≠ TraceType.Picante := by
  refine ⟨by decide, rfl, by decide⟩

/-- The spec-side Picante condition restricted to exact key match: some
span has an attribute with key exactly `"picante.query"`. -/
def tracePicante (tr : Trace) : Prop :=
  ∃ s ∈ tr.spans, ∃ v, ("picante.query", v) ∈ s.attributes

/-- The spec-side Rapace condition: some span's `"rpc.system"` attribute
is the string `"rapace"`. -/
def traceRapace (tr : Trace) : Prop :=
  ∃ s ∈ tr.spans,
    attrsGet s.attributes "rpc.system" = some (AttributeValue.String "rapace")

/-- The spec-side Dodeca condition: some span has an attribute with key
exactly `"dodeca.build"`. -/
def traceDodeca (tr : Trace) : Prop :=
  ∃ s ∈ tr.spans, ∃ v, ("dodeca.build", v) ∈ s.attributes

theorem attrsContainsKey_iff (attrs : List (String × AttributeValue))
    (k : String) :
    attrsContainsKey attrs k = true ↔ ∃ v, (k, v) ∈ attrs := by
  unfold attrsContainsKey
  rw [List.any_eq_true]
  constructor
  · rintro ⟨⟨k0, v0⟩, hmem, hk⟩
    simp only [decide_eq_true_eq] at hk
    subst hk
    exact ⟨v0, hmem⟩
  · rintro ⟨v, hmem⟩
    exact ⟨(k, v), hmem, by simp⟩

theorem spanHasPicante_iff (s : Span) :
    spanHasPicante s = true ↔ ∃ v, ("picante.query", v) ∈ s.attributes :=
  attrsContainsKey_iff s.attributes "picante.query"

theorem spanHasDodeca_iff (s : Span) :
    spanHasDodeca s = true ↔ ∃ v, ("dodeca.build", v) ∈ s.attributes :=
  attrsContainsKey_iff s.attributes "dodeca.build"

theorem spanHasRapace_iff (s : Span) :
    spanHasRapace s = true
      ↔ attrsGet s.attributes "rpc.system"
          = some (AttributeValue.String "rapace") := by
  unfold spanHasRapace
  cases h : attrsGet s.attributes "rpc.system" with
  | none => simp
  | some av => cases av <;> simp

theorem anyPicante_iff (tr : Trace) :
    tr.spans.any spanHasPicante = true ↔ tracePicante tr := by
  rw [List.any_eq_true]
  unfold tracePicante
  constructor
  · rintro ⟨s, hs, hp⟩
    exact ⟨s, hs, (spanHasPicante_iff s).mp hp⟩
  · rintro ⟨s, hs, hp⟩
    exact ⟨s, hs, (spanHasPicante_iff s).mpr hp⟩

theorem anyRapace_iff (tr : Trace) :
    tr.spans.any spanHasRapace = true ↔ traceRapace tr := by
  rw [List.any_eq_true]
  unfold traceRapace
  constructor
  · rintro ⟨s, hs, hp⟩
    exact ⟨s, hs, (spanHasRapace_iff s).mp hp⟩
  · rintro ⟨s, hs, hp⟩
    exact ⟨s, hs, (spanHasRapace_iff s).mpr hp⟩

theorem anyDodeca_iff (tr : Trace) :
    tr.spans.any spanHasDodeca = true ↔ traceDodeca tr := by
  rw [List.any_eq_true]
  unfold traceDodeca
  constructor
  · rintro ⟨s, hs, hp⟩
    exact ⟨s, hs, (spanHasDodeca_iff s).mp hp⟩
  · rintro ⟨s, hs, hp⟩
    exact ⟨s, hs, (spanHasDodeca_iff s).mpr hp⟩

/-- C8 (amended): `classify_type` marks Picante on an attribute key
exactly equal to `"picante.query"` (not on keys that merely start with
it), Rapace when some span's `"rpc.system"` attribute is the string
`"rapace"`, Dodeca on key `"dodeca.build"`; it returns `Generic` when no
framework matched, the single framework when exactly one did, and `Mixed`
when two or more did. -/
theorem C8_classify_characterization (tr : Trace) :
    (tr.classify_type = TraceType.Generic
      ↔ ¬tracePicante tr ∧ ¬traceRapace tr ∧ ¬traceDodeca tr) ∧
    (tr.classify_type = TraceType.Picante
      ↔ tracePicante tr ∧ ¬traceRapace tr ∧ ¬traceDodeca tr) ∧
    (tr.classify_type = TraceType.Rapace
      ↔ ¬tracePicante tr ∧ traceRapace tr ∧ ¬traceDodeca tr) ∧
    (tr.classify_type = TraceType.Dodeca
      ↔ ¬tracePicante tr ∧ ¬traceRapace tr ∧ traceDodeca tr) ∧
    (tr.classify_type = TraceType.Mixed
      ↔ ((tracePicante tr ∧ traceRapace tr)
          ∨ (tracePicante tr ∧ traceDodeca tr)
          ∨ (traceRapace tr ∧ traceDodeca tr))) := by
  simp only [← anyPicante_iff, ← anyRapace_iff, ← anyDodeca_iff]
  cases hp : tr.spans.any spanHasPicante <;>
    cases hr : tr.spans.any spanHasRapace <;>
      cases hd : tr.spans.any spanHasDodeca <;>
        simp [Trace.classify_type, hp, hr, hd]

/-! ### Claim C4: trace assembly -/

theorem natMax?_eq_some_iff {xs : List Nat} {m : Nat} :
    xs.max? = some m ↔ m ∈ xs ∧ ∀ b ∈ xs, b ≤ m :=
  List.max?_eq_some_iff (fun a => Nat.le_refl a) (fun a b => max_choice a b)
    (fun _ _ _ => max_le_iff)

theorem from_spans_eq {spans : List Span} {first root : Span}
    {rest : List Span}
    (hs : sortSpans spans = first :: rest)
    (hf : (first :: rest).find? (fun s => s.parent_span_id.isNone)
        = some root) :
    Trace.from_spans spans
      = some { trace_id := first.trace_id
               spans := first :: rest
               root_span_id := root.span_id
               start_time := root.start_time
               end_time := ((first :: rest).filterMap Span.end_time).max? } := by
  unfold Trace.from_spans
  simp only [hs, hf]

/-- C4: `from_spans` on a non-empty list with exactly one parentless span
returns a trace rooted at that span with its `span_id` and `start_time`,
and `end_time` the maximum over all spans (`none` when every span is
open); on the empty list, or when no span is parentless, it returns
`none`. -/
theorem C4_from_spans :
    (∀ spans : List Span, spans ≠ [] →
      spans.countP (fun s => s.parent_span_id.isNone) = 1 →
      ∃ tr, Trace.from_spans spans = some tr ∧
        (∀ r ∈ spans, r.parent_span_id = none →
          tr.root_span_id = r.span_id ∧ tr.start_time = r.start_time) ∧
        (tr.end_time = none ↔ ∀ s ∈ spans, s.end_time = none) ∧
        (∀ m, tr.end_time = some m →
          (∃ s ∈ spans, s.end_time = some m) ∧
          ∀ s ∈ spans, ∀ e, s.end_time = some e → e ≤ m)) ∧
    Trace.from_spans [] = none ∧
    (∀ spans : List Span, (∀ s ∈ spans, s.parent_span_id ≠ none) →
      Trace.from_spans spans = none) := by
  refine ⟨?_, rfl, ?_⟩
  · intro spans hne hcount
    have hperm := sortSpans_perm spans
    have hlen1 :
        (spans.filter (fun s => s.parent_span_id.isNone)).length = 1 := by
      rw [← List.countP_eq_length_filter]
      exact hcount
    obtain ⟨r, hr⟩ := List.length_eq_one.mp hlen1
    have hfiltersorted :
        (sortSpans spans).filter (fun s => s.parent_span_id.isNone) = [r] := by
      have h := hperm.filter (fun s => s.parent_span_id.isNone)
      rw [hr] at h
      exact List.perm_singleton.mp h
    have hfind :
        (sortSpans spans).find? (fun s => s.parent_span_id.isNone)
          = some r := by
      rw [find?_eq_head?_filter, hfiltersorted]
      rfl
    cases hs : sortSpans spans with
    | nil =>
      exfalso
      have hl := hperm.length_eq
      rw [hs] at hl
      exact hne (List.length_eq_zero.mp hl.symm)
    | cons first rest =>
      rw [hs] at hfind
      have hmem : ∀ x : Span, x ∈ first :: rest ↔ x ∈ spans := by
        intro x
        rw [← hs]
        exact mem_sortSpans
      refine ⟨_, from_spans_eq hs hfind, ?_, ?_, ?_⟩
      · intro r' hr'mem hr'none
        have hr'filter : r' ∈ spans.filter (fun s => s.parent_span_id.isNone) := by
          rw [List.mem_filter]
          exact ⟨hr'mem, by simp [hr'none]⟩
        rw [hr] at hr'filter
        have : r' = r := List.mem_singleton.mp hr'filter
        subst this
        exact ⟨rfl, rfl⟩
      · show ((first :: rest).filterMap Span.end_time).max? = none ↔ _
        rw [List.max?_eq_none_iff, List.filterMap_eq_nil_iff]
        constructor
        · intro h s hsmem
          exact h s ((hmem s).mpr hsmem)
        · intro h s hsmem
          exact h s ((hmem s).mp hsmem)
      · intro m hm
        have h := natMax?_eq_some_iff.mp hm
        obtain ⟨hmmem, hub⟩ := h
        obtain ⟨s, hsmem, hse⟩ := List.mem_filterMap.mp hmmem
        refine ⟨⟨s, (hmem s).mp hsmem, hse⟩, ?_⟩
        intro s' hs'mem e he
        exact hub e (List.mem_filterMap.mpr ⟨s', (hmem s').mpr hs'mem, he⟩)
  · intro spans hall
    cases hs : sortSpans spans with
    | nil =>
      unfold Trace.from_spans
      simp only [hs]
    | cons first rest =>
      have hfind :
          (first :: rest).find? (fun s => s.parent_span_id.isNone) = none := by
        rw [List.find?_eq_none]
        intro x hx
        have hx' : x ∈ spans := by
          rw [← mem_sortSpans (l := spans), hs]
          exact hx
        cases hpx : x.parent_span_id with
        | none => exact absurd hpx (hall x hx')
        | some _ => simp [hpx]
      unfold Trace.from_spans
      simp only [hs, hfind]

/-- Witness for `C4_from_spans` on the concrete two-span example trace. -/
theorem C4_from_spans_witness :
    ([exRootSpan, exChildSpan] ≠ ([] : List Span)) ∧
    ([exRootSpan, exChildSpan].countP (fun s => s.parent_span_id.isNone) = 1) ∧
    (Trace.from_spans [exRootSpan, exChildSpan]).isSome = true := by
  refine ⟨by decide, by decide, ?_⟩
  obtain ⟨tr, htr, -, -, -⟩ :=
    C4_from_spans.1 [exRootSpan, exChildSpan] (by decide) (by decide)
  rw [htr]
  rfl

/-! ### Claim C9: traceparent round trip -/

theorem hexDigitLower_val : ∀ {n : Nat}, n < 16 →
    hexDigitVal (hexDigitLower n) = some n := by
  have h : ∀ i : Fin 16, hexDigitVal (hexDigitLower i.val) = some i.val := by
    decide
  intro n hn
  exact h ⟨n, hn⟩

theorem hexDigitLower_ne_dash : ∀ {n : Nat}, n < 16 →
    hexDigitLower n ≠ '-' := by
  have h : ∀ i : Fin 16, hexDigitLower i.val ≠ '-' := by decide
  intro n hn
  exact h ⟨n, hn⟩

theorem hexDigitLower_ne_plus : ∀ {n : Nat}, n < 16 →
    hexDigitLower n ≠ '+' := by
  have h : ∀ i : Fin 16, hexDigitLower i.val ≠ '+' := by decide
  intro n hn
  exact h ⟨n, hn⟩

theorem hexEncode_no_dash {bytes : List Nat} (hb : ∀ b ∈ bytes, b < 256) :
    ∀ c ∈ hexEncode bytes, c ≠ '-' := by
  intro c hc
  unfold hexEncode at hc
  obtain ⟨b, hbmem, hcb⟩ := List.mem_flatMap.mp hc
  have hb256 := hb b hbmem
  rcases List.mem_cons.mp hcb with h | h
  · subst h
    exact hexDigitLower_ne_dash (by omega)
  · rw [List.mem_singleton.mp h]
    exact hexDigitLower_ne_dash (by omega)

theorem hexEncode_length (bytes : List Nat) :
    (hexEncode bytes).length = 2 * bytes.length := by
  induction bytes with
  | nil => rfl
  | cons b rest ih =>
    simp only [hexEncode, List.flatMap_cons] at ih ⊢
    simp [ih]
    omega

theorem hexDecode_encode : ∀ {bytes : List Nat}, (∀ b ∈ bytes, b < 256) →
    hexDecode (hexEncode bytes) = some bytes := by
  intro bytes
  induction bytes with
  | nil => intro _; rfl
  | cons b rest ih =>
    intro hb
    have hb256 : b < 256 := hb b (List.mem_cons_self b rest)
    have hrest : ∀ x ∈ rest, x < 256 :=
      fun x hx => hb x (List.mem_cons_of_mem b hx)
    have hdiv : b / 16 < 16 := by omega
    have hmod : b % 16 < 16 := by omega
    show hexDecode
        (hexDigitLower (b / 16) :: hexDigitLower (b % 16) :: hexEncode rest)
      = some (b :: rest)
    unfold hexDecode
    rw [hexDigitLower_val hdiv, hexDigitLower_val hmod, ih hrest]
    show some ((16 * (b / 16) + b % 16) :: rest) = some (b :: rest)
    have hdm : 16 * (b / 16) + b % 16 = b := by omega
    rw [hdm]

theorem splitOnDash_cons_dash (cs : List Char) :
    splitOnDash ('-' :: cs) = [] :: splitOnDash cs := by
  simp [splitOnDash]

theorem splitOnDash_ne_nil : ∀ cs : List Char, splitOnDash cs ≠ [] := by
  intro cs
  induction cs with
  | nil => simp [splitOnDash]
  | cons c rest ih =>
    unfold splitOnDash
    by_cases h : c = '-'
    · simp [h]
    · simp only [h, if_false]
      cases hsp : splitOnDash rest with
      | nil => simp
      | cons g gs => simp

theorem splitOnDash_no_dash {cs : List Char} (h : ∀ c ∈ cs, c ≠ '-') :
    splitOnDash cs = [cs] := by
  induction cs with
  | nil => rfl
  | cons c rest ih =>
    have hc : c ≠ '-' := h c (List.mem_cons_self c rest)
    have hrest : ∀ x ∈ rest, x ≠ '-' :=
      fun x hx => h x (List.mem_cons_of_mem c hx)
    unfold splitOnDash
    rw [if_neg hc, ih hrest]

theorem splitOnDash_cons_ne {c : Char} (cs : List Char) (hc : c ≠ '-') :
    splitOnDash (c :: cs)
      = match splitOnDash cs with
        | [] => [[c]]
        | g :: gs => (c :: g) :: gs := by
  conv_lhs => rw [splitOnDash]
  rw [if_neg hc]

theorem splitOnDash_append {a : List Char} (b : List Char)
    (h : ∀ c ∈ a, c ≠ '-') :
    splitOnDash (a ++ '-' :: b) = a :: splitOnDash b := by
  induction a with
  | nil =>
    simp only [List.nil_append]
    exact splitOnDash_cons_dash b
  | cons c a' ih =>
    have hc : c ≠ '-' := h c (List.mem_cons_self c a')
    have ha' : ∀ x ∈ a', x ≠ '-' :=
      fun x hx => h x (List.mem_cons_of_mem c hx)
    show splitOnDash (c :: (a' ++ '-' :: b)) = (c :: a') :: splitOnDash b
    rw [splitOnDash_cons_ne _ hc, ih ha']

theorem fmtHex02_no_dash {f : Nat} (hf : f < 256) :
    ∀ c ∈ fmtHex02 f, c ≠ '-' := by
  intro c hc
  unfold fmtHex02 at hc
  rcases List.mem_cons.mp hc with h | h
  · subst h
    exact hexDigitLower_ne_dash (by omega)
  · rw [List.mem_singleton.mp h]
    exact hexDigitLower_ne_dash (by omega)

theorem u8FromStrRadix16_fmtHex02 {f : Nat} (hf : f < 256) :
    u8FromStrRadix16 (fmtHex02 f) = some f := by
  have hdiv : f / 16 < 16 := by omega
  have hmod : f % 16 < 16 := by omega
  have hne : hexDigitLower (f / 16) ≠ '+' := hexDigitLower_ne_plus hdiv
  unfold u8FromStrRadix16 fmtHex02
  simp only []
  have hstrip :
      (match [hexDigitLower (f / 16), hexDigitLower (f % 16)] with
        | '+' :: rest => rest
        | other => other)
      = [hexDigitLower (f / 16), hexDigitLower (f % 16)] := by
    split
    · rename_i heq
      rw [List.cons.injEq] at heq
      exact absurd heq.1 hne
    · rfl
  rw [hstrip]
  rw [show ([hexDigitLower (f / 16), hexDigitLower (f % 16)]).isEmpty = false
    from rfl]
  rw [if_neg (by simp)]
  rw [List.foldl_cons, List.foldl_cons, List.foldl_nil]
  rw [show (match some 0, hexDigitVal (hexDigitLower (f / 16)) with
      | some a, some d => if 16 * a + d < 256 then some (16 * a + d) else none
      | _, _ => none)
      = some (f / 16) by
    rw [hexDigitLower_val hdiv]
    show (if 16 * 0 + f / 16 < 256 then some (16 * 0 + f / 16) else none)
      = some (f / 16)
    rw [if_pos (by omega)]
    congr 1
    omega]
  rw [hexDigitLower_val hmod]
  show (if 16 * (f / 16) + f % 16 < 256 then some (16 * (f / 16) + f % 16)
      else none) = some f
  rw [if_pos (by omega)]
  congr 1
  omega

theorem traceIdFromHexEncode {bytes : List Nat} (hlen : bytes.length = 16)
    (hb : ∀ b ∈ bytes, b < 256) :
    TraceId.from_hex (hexEncode bytes) = .ok ⟨bytes⟩ := by
  unfold TraceId.from_hex
  rw [if_neg (by rw [hexEncode_length, hlen]; omega)]
  rw [hexDecode_encode hb]

theorem spanIdFromHexEncode {bytes : List Nat} (hlen : bytes.length = 8)
    (hb : ∀ b ∈ bytes, b < 256) :
    SpanId.from_hex (hexEncode bytes) = .ok ⟨bytes⟩ := by
  unfold SpanId.from_hex
  rw [if_neg (by rw [hexEncode_length, hlen]; omega)]
  rw [hexDecode_encode hb]

/-- C9: parsing the formatted `traceparent` of any well-formed context
gives back the same `trace_id`, `span_id` and `flags`, with
`parent_span_id = none` regardless of the context's own parent. -/
theorem C9_roundtrip (c : TraceContext)
    (ht : c.trace_id.bytes.length = 16)
    (htb : ∀ b ∈ c.trace_id.bytes, b < 256)
    (hsp : c.span_id.bytes.length = 8)
    (hsb : ∀ b ∈ c.span_id.bytes, b < 256)
    (hf : c.flags < 256) :
    TraceContext.from_traceparent c.to_traceparent
      = .ok { trace_id := c.trace_id, span_id := c.span_id
              parent_span_id := none, flags := c.flags } := by
  have hshape : c.to_traceparent
      = ['0', '0'] ++ '-' :: (hexEncode c.trace_id.bytes
          ++ '-' :: (hexEncode c.span_id.bytes ++ '-' :: fmtHex02 c.flags)) := by
    unfold TraceContext.to_traceparent TraceId.to_hex SpanId.to_hex
    simp
  have hsplit : splitOnDash c.to_traceparent
      = [['0', '0'], hexEncode c.trace_id.bytes, hexEncode c.span_id.bytes,
         fmtHex02 c.flags] := by
    rw [hshape]
    rw [splitOnDash_append _ (by decide)]
    rw [splitOnDash_append _ (hexEncode_no_dash htb)]
    rw [splitOnDash_append _ (hexEncode_no_dash hsb)]
    rw [splitOnDash_no_dash (fmtHex02_no_dash hf)]
  unfold TraceContext.from_traceparent
  simp only [hsplit]
  rw [if_neg (by simp)]
  rw [traceIdFromHexEncode ht htb]
  rw [spanIdFromHexEncode hsp hsb]
  rw [u8FromStrRadix16_fmtHex02 hf]

/-- A concrete context (with a parent set) for the round-trip witness. -/
def exContext : TraceContext :=
  ⟨⟨[0, 1, 2, 3, 4, 5, 6, 7, 8, 9, 10, 11, 12, 13, 14, 255]⟩,
   ⟨[15, 16, 17, 18, 19, 20, 21, 22]⟩, some exRootId, 1⟩

/-- Witness for `C9_roundtrip` at `exContext`. -/
theorem C9_roundtrip_witness :
    exContext.trace_id.bytes.length = 16 ∧
    (∀ b ∈ exContext.trace_id.bytes, b < 256) ∧
    exContext.span_id.bytes.length = 8 ∧
    (∀ b ∈ exContext.span_id.bytes, b < 256) ∧
    exContext.flags < 256 ∧
    TraceContext.from_traceparent exContext.to_traceparent
      = .ok { trace_id := exContext.trace_id, span_id := exContext.span_id
              parent_span_id := none, flags := exContext.flags } := by
  refine ⟨by decide, by decide, by decide, by decide, by decide, ?_⟩
  exact C9_roundtrip exContext (by decide) (by decide) (by decide) (by decide)
    (by decide)

/-! ### Claim C6: traceparent parsing domain -/

/-- A header whose flags field is a single hex digit. -/
def exOneDigitFlags : List Char :=
  ('0' :: '0' :: '-' :: List.replicate 32 '0')
    ++ ('-' :: List.replicate 16 '0') ++ ['-', 'f']

/-- C6 counterexample: the claim says a flags field that is not exactly two
hex digits is rejected, but `"00-<32 zeros>-<16 zeros>-f"` — flags field
`"f"`, one digit — parses successfully with flags 15. -/
theorem C6_one_digit_flags_cx :
    TraceContext.from_traceparent exOneDigitFlags
      = .ok ⟨⟨List.replicate 16 0⟩, ⟨List.replicate 8 0⟩, none, 15⟩ := by
  decide

/-- Is the character a hex digit (either case)? -/
def isHexChar (c : Char) : Bool := (hexDigitVal c).isSome

/-- Numeric value of a run of hex digits (non-digits count 0; only used on
all-hex runs). -/
def hexFieldValue (d : List Char) : Nat :=
  d.foldl (fun a c => 16 * a + ((hexDigitVal c).getD 0)) 0

/-- The amended flags-field condition — exactly what
`u8::from_str_radix(_, 16)` accepts: an optional leading `'+'`, then a
nonempty run of hex digits whose value fits in a `u8`. -/
def ValidFlagsField (p : List Char) : Prop :=
  (p ≠ [] ∧ (∀ c ∈ p, isHexChar c = true) ∧ hexFieldValue p ≤ 255) ∨
  (∃ d, p = '+' :: d ∧ d ≠ [] ∧ (∀ c ∈ d, isHexChar c = true) ∧
    hexFieldValue d ≤ 255)

/-- The amended domain of `from_traceparent`: `"00-"`, then 32 hex chars,
`'-'`, 16 hex chars, `'-'`, and a valid flags field. -/
def ValidTraceparent (cs : List Char) : Prop :=
  ∃ t s f, cs = ['0', '0', '-'] ++ t ++ ['-'] ++ s ++ ['-'] ++ f ∧
    t.length = 32 ∧ (∀ c ∈ t, isHexChar c = true) ∧
    s.length = 16 ∧ (∀ c ∈ s, isHexChar c = true) ∧ ValidFlagsField f

theorem hexDecode_isSome_iff : ∀ cs : List Char,
    (hexDecode cs).isSome = true
      ↔ cs.length % 2 = 0 ∧ ∀ c ∈ cs, isHexChar c = true := by
  intro cs
  induction cs using hexDecode.induct with
  | case1 => simp [hexDecode]
  | case2 c => simp [hexDecode]
  | case3 c1 c2 rest h l tail hrest hc2 hc1 ih =>
    have hdec : hexDecode (c1 :: c2 :: rest) = some ((16 * h + l) :: tail) := by
      unfold hexDecode
      rw [hc1, hc2, hrest]
    rw [hdec]
    constructor
    · intro _
      have hrs : (hexDecode rest).isSome = true := by rw [hrest]; rfl
      obtain ⟨hlen, hhex⟩ := ih.mp hrs
      refine ⟨by simp [List.length_cons]; omega, ?_⟩
      intro c hc
      rcases List.mem_cons.mp hc with h1 | h1
      · subst h1; simp [isHexChar, hc1]
      rcases List.mem_cons.mp h1 with h2 | h2
      · subst h2; simp [isHexChar, hc2]
      · exact hhex c h2
    · intro _; rfl
  | case4 c1 c2 rest hfail ih =>
    constructor
    · intro hs
      exfalso
      unfold hexDecode at hs
      cases hdc1 : hexDigitVal c1 with
      | none => rw [hdc1] at hs; simp at hs
      | some h =>
        cases hdc2 : hexDigitVal c2 with
        | none => rw [hdc1, hdc2] at hs; simp at hs
        | some l =>
          cases hdr : hexDecode rest with
          | none => rw [hdc1, hdc2, hdr] at hs; simp at hs
          | some tail => exact hfail h l tail hdc1 hdc2 hdr
    · rintro ⟨hlen, hhex⟩
      exfalso
      obtain ⟨h, hc1⟩ := Option.isSome_iff_exists.mp
        (hhex c1 (List.mem_cons_self _ _))
      obtain ⟨l, hc2⟩ := Option.isSome_iff_exists.mp
        (hhex c2 (List.mem_cons_of_mem _ (List.mem_cons_self _ _)))
      have hrest : (hexDecode rest).isSome = true := by
        refine ih.mpr ⟨?_, ?_⟩
        · simp [List.length_cons] at hlen; omega
        · intro c hc
          exact hhex c (List.mem_cons_of_mem _ (List.mem_cons_of_mem _ hc))
      obtain ⟨tail, hdr⟩ := Option.isSome_iff_exists.mp hrest
      exact hfail h l tail hc1 hc2 hdr

/-- Inverse of `splitOnDash`: rejoin the groups with dashes. -/
def joinDash : List (List Char) → List Char
  | [] => []
  | g :: gs => g ++ gs.flatMap (fun h => '-' :: h)

theorem joinDash_splitOnDash : ∀ cs : List Char,
    joinDash (splitOnDash cs) = cs := by
  intro cs
  induction cs with
  | nil => rfl
  | cons c rest ih =>
    by_cases hc : c = '-'
    · subst hc
      rw [splitOnDash_cons_dash]
      cases hsp : splitOnDash rest with
      | nil => exact absurd hsp (splitOnDash_ne_nil rest)
      | cons g gs =>
        rw [hsp] at ih
        show [] ++ ('-' :: g) ++ gs.flatMap (fun h => '-' :: h) = '-' :: rest
        simp only [List.nil_append, List.cons_append]
        rw [show g ++ gs.flatMap (fun h => '-' :: h) = joinDash (g :: gs) from rfl]
        rw [ih]
    · rw [splitOnDash_cons_ne _ hc]
      cases hsp : splitOnDash rest with
      | nil => exact absurd hsp (splitOnDash_ne_nil rest)
      | cons g gs =>
        rw [hsp] at ih
        show (c :: g) ++ gs.flatMap (fun h => '-' :: h) = c :: rest
        simp only [List.cons_append]
        rw [show g ++ gs.flatMap (fun h => '-' :: h) = joinDash (g :: gs) from rfl]
        rw [ih]

/-- The checked accumulator step of `u8FromStrRadix16`. -/
def u8Step (acc : Option Nat) (c : Char) : Option Nat :=
  match acc, hexDigitVal c with
  | some a, some d => if 16 * a + d < 256 then some (16 * a + d) else none
  | _, _ => none

theorem u8Step_foldl_none : ∀ d : List Char, d.foldl u8Step none = none := by
  intro d
  induction d with
  | nil => rfl
  | cons c rest ih =>
    rw [List.foldl_cons]
    rw [show u8Step none c = none from rfl]
    exact ih

/-- `hexFieldValue` starting from an accumulator. -/
def hexFieldValueFrom (d : List Char) (a : Nat) : Nat :=
  d.foldl (fun x c => 16 * x + ((hexDigitVal c).getD 0)) a

theorem hexFieldValueFrom_ge : ∀ (d : List Char) (a : Nat),
    a ≤ hexFieldValueFrom d a := by
  intro d
  induction d with
  | nil => intro a; exact Nat.le_refl a
  | cons c rest ih =>
    intro a
    have h1 : a ≤ 16 * a + ((hexDigitVal c).getD 0) := by omega
    exact Nat.le_trans h1 (ih _)

theorem u8Step_foldl_isSome : ∀ (d : List Char) (a : Nat), a ≤ 255 →
    ((d.foldl u8Step (some a)).isSome = true
      ↔ (∀ c ∈ d, isHexChar c = true) ∧ hexFieldValueFrom d a ≤ 255) := by
  intro d
  induction d with
  | nil =>
    intro a ha
    simp [hexFieldValueFrom, ha]
  | cons c rest ih =>
    intro a ha
    rw [List.foldl_cons]
    cases hdc : hexDigitVal c with
    | none =>
      rw [show u8Step (some a) c = none by unfold u8Step; rw [hdc]]
      rw [u8Step_foldl_none]
      constructor
      · intro h; simp at h
      · rintro ⟨hhex, -⟩
        have := hhex c (List.mem_cons_self _ _)
        simp [isHexChar, hdc] at this
    | some dv =>
      have hval : hexFieldValueFrom (c :: rest) a
          = hexFieldValueFrom rest (16 * a + dv) := by
        unfold hexFieldValueFrom
        rw [List.foldl_cons, hdc]
        rfl
      by_cases hlt : 16 * a + dv < 256
      · rw [show u8Step (some a) c = some (16 * a + dv) by
          unfold u8Step; rw [hdc]; exact if_pos hlt]
        rw [ih (16 * a + dv) (by omega), hval]
        constructor
        · rintro ⟨hhex, hv⟩
          refine ⟨?_, hv⟩
          intro x hx
          rcases List.mem_cons.mp hx with h1 | h1
          · subst h1; simp [isHexChar, hdc]
          · exact hhex x h1
        · rintro ⟨hhex, hv⟩
          exact ⟨fun x hx => hhex x (List.mem_cons_of_mem _ hx), hv⟩
      · rw [show u8Step (some a) c = none by
          unfold u8Step; rw [hdc]; exact if_neg hlt]
        rw [u8Step_foldl_none]
        constructor
        · intro h; simp at h
        · rintro ⟨-, hv⟩
          rw [hval] at hv
          have := hexFieldValueFrom_ge rest (16 * a + dv)
          omega

theorem u8FromStrRadix16_isSome_iff : ∀ p : List Char,
    (u8FromStrRadix16 p).isSome = true ↔ ValidFlagsField p := by
  have hplus_not_hex : isHexChar '+' = false := by decide
  intro p
  unfold u8FromStrRadix16
  cases p with
  | nil =>
    constructor
    · intro h; simp at h
    · rintro (⟨hne, -, -⟩ | ⟨d, hd, -, -, -⟩)
      · exact absurd rfl hne
      · exact absurd hd (by simp)
  | cons c rest =>
    by_cases hc : c = '+'
    · subst hc
      show (if rest.isEmpty then none else rest.foldl u8Step (some 0)).isSome
          = true ↔ _
      constructor
      · intro h
        cases hrest : rest with
        | nil => rw [hrest] at h; simp at h
        | cons r rs =>
          rw [hrest] at h
          rw [show (r :: rs).isEmpty = false from rfl, if_neg (by simp)] at h
          obtain ⟨hhex, hv⟩ := (u8Step_foldl_isSome (r :: rs) 0 (by omega)).mp h
          right
          exact ⟨r :: rs, rfl, by simp, hhex, hv⟩
      · rintro (⟨-, hhex, -⟩ | ⟨d, hd, hdne, hhex, hv⟩)
        · have := hhex '+' (List.mem_cons_self _ _)
          rw [hplus_not_hex] at this
          exact absurd this (by simp)
        · have hdr : rest = d := by
            have h2 := hd
            rw [List.cons.injEq] at h2
            exact h2.2
          subst hdr
          rw [if_neg (by simp [List.isEmpty_iff, hdne])]
          exact (u8Step_foldl_isSome rest 0 (by omega)).mpr
            ⟨hhex, by unfold hexFieldValue at hv; exact hv⟩
    · have hstrip : (match c :: rest with
          | '+' :: r => r
          | other => other) = c :: rest := by
        split
        · rename_i heq
          rw [List.cons.injEq] at heq
          exact absurd heq.1 hc
        · rfl
      rw [hstrip]
      show (if (c :: rest).isEmpty then none
          else (c :: rest).foldl u8Step (some 0)).isSome = true ↔ _
      rw [show (c :: rest).isEmpty = false from rfl, if_neg (by simp)]
      rw [u8Step_foldl_isSome (c :: rest) 0 (by omega)]
      constructor
      · rintro ⟨hhex, hv⟩
        left
        exact ⟨by simp, hhex, hv⟩
      · rintro (⟨-, hhex, hv⟩ | ⟨d, hd, -, -, -⟩)
        · exact ⟨hhex, hv⟩
        · rw [List.cons.injEq] at hd
          exact absurd hd.1 hc

theorem isHexChar_ne_dash {c : Char} (h : isHexChar c = true) : c ≠ '-' := by
  intro he
  subst he
  rw [show isHexChar '-' = false from rfl] at h
  exact absurd h (by simp)

/-- C6 (amended): `from_traceparent` succeeds exactly on
`"00-<32 hex>-<16 hex>-<flags>"` where the flags field is what
`u8::from_str_radix(_, 16)` accepts: an optional leading `'+'`, then one
or more hex digits with value at most 255 (so `"f"` or `"0ff"` are
accepted, not only exactly two hex digits); the four error conditions of
the claim (field count, version, trace-id shape, span-id shape) are as
stated. -/
theorem C6_from_traceparent_domain (cs : List Char) :
    (∃ c, TraceContext.from_traceparent cs = .ok c) ↔ ValidTraceparent cs := by
  constructor
  · rintro ⟨c, hok⟩
    unfold TraceContext.from_traceparent at hok
    rcases hsp : splitOnDash cs with - | ⟨p0, - | ⟨p1, - | ⟨p2, - | ⟨p3, - | ⟨p4, rest5⟩⟩⟩⟩⟩
    case nil => rw [hsp] at hok; exact Except.noConfusion hok
    case cons.nil => rw [hsp] at hok; exact Except.noConfusion hok
    case cons.cons.nil => rw [hsp] at hok; exact Except.noConfusion hok
    case cons.cons.cons.nil => rw [hsp] at hok; exact Except.noConfusion hok
    case cons.cons.cons.cons.cons => rw [hsp] at hok; exact Except.noConfusion hok
    case cons.cons.cons.cons.nil =>
      simp only [hsp] at hok
      by_cases h0 : p0 = ['0', '0']
      swap
      · rw [if_pos h0] at hok
        exact Except.noConfusion hok
      rw [if_neg (by simp [h0])] at hok
      cases hT : TraceId.from_hex p1 with
      | error e =>
        rw [hT] at hok
        exact Except.noConfusion hok
      | ok t =>
        rw [hT] at hok
        cases hS : SpanId.from_hex p2 with
        | error e =>
          rw [hS] at hok
          exact Except.noConfusion hok
        | ok s =>
          rw [hS] at hok
          cases hF : u8FromStrRadix16 p3 with
          | none =>
            rw [hF] at hok
            exact Except.noConfusion hok
          | some fv =>
            unfold TraceId.from_hex at hT
            by_cases hl1 : p1.length = 32
            swap
            · rw [if_pos hl1] at hT
              exact Except.noConfusion hT
            rw [if_neg (by simp [hl1])] at hT
            cases hd1 : hexDecode p1 with
            | none =>
              rw [hd1] at hT
              exact Except.noConfusion hT
            | some tb =>
              unfold SpanId.from_hex at hS
              by_cases hl2 : p2.length = 16
              swap
              · rw [if_pos hl2] at hS
                exact Except.noConfusion hS
              rw [if_neg (by simp [hl2])] at hS
              cases hd2 : hexDecode p2 with
              | none =>
                rw [hd2] at hS
                exact Except.noConfusion hS
              | some sb =>
                have hhex1 : ∀ x ∈ p1, isHexChar x = true :=
                  ((hexDecode_isSome_iff p1).mp (by rw [hd1]; rfl)).2
                have hhex2 : ∀ x ∈ p2, isHexChar x = true :=
                  ((hexDecode_isSome_iff p2).mp (by rw [hd2]; rfl)).2
                have hfvalid : ValidFlagsField p3 :=
                  (u8FromStrRadix16_isSome_iff p3).mp (by rw [hF]; rfl)
                have hcs : cs = ['0', '0', '-'] ++ p1 ++ ['-'] ++ p2
                    ++ ['-'] ++ p3 := by
                  have hj := joinDash_splitOnDash cs
                  rw [hsp, h0] at hj
                  rw [← hj]
                  simp [joinDash]
                exact ⟨p1, p2, p3, hcs, hl1, hhex1, hl2, hhex2, hfvalid⟩
  · rintro ⟨t, s, f, hshape, ht32, hthex, hs16, hshex, hfvalid⟩
    have htnd : ∀ x ∈ t, x ≠ '-' := fun x hx => isHexChar_ne_dash (hthex x hx)
    have hsnd : ∀ x ∈ s, x ≠ '-' := fun x hx => isHexChar_ne_dash (hshex x hx)
    have hfnd : ∀ x ∈ f, x ≠ '-' := by
      rcases hfvalid with ⟨-, hhex, -⟩ | ⟨d, hd, -, hhex, -⟩
      · exact fun x hx => isHexChar_ne_dash (hhex x hx)
      · intro x hx
        rw [hd] at hx
        rcases List.mem_cons.mp hx with h1 | h1
        · subst h1; decide
        · exact isHexChar_ne_dash (hhex x h1)
    have hsplit : splitOnDash cs = [['0', '0'], t, s, f] := by
      rw [hshape]
      rw [show (['0', '0', '-'] : List Char) ++ t ++ ['-'] ++ s ++ ['-'] ++ f
          = ['0', '0'] ++ '-' :: (t ++ '-' :: (s ++ '-' :: f)) by simp]
      rw [splitOnDash_append _ (by decide)]
      rw [splitOnDash_append _ htnd]
      rw [splitOnDash_append _ hsnd]
      rw [splitOnDash_no_dash hfnd]
    have hdt : (hexDecode t).isSome = true :=
      (hexDecode_isSome_iff t).mpr ⟨by rw [ht32], hthex⟩
    obtain ⟨tb, htb⟩ := Option.isSome_iff_exists.mp hdt
    have hds : (hexDecode s).isSome = true :=
      (hexDecode_isSome_iff s).mpr ⟨by rw [hs16], hshex⟩
    obtain ⟨sb, hsb⟩ := Option.isSome_iff_exists.mp hds
    have hff : (u8FromStrRadix16 f).isSome = true :=
      (u8FromStrRadix16_isSome_iff f).mpr hfvalid
    obtain ⟨fv, hfv⟩ := Option.isSome_iff_exists.mp hff
    refine ⟨⟨⟨tb⟩, ⟨sb⟩, none, fv⟩, ?_⟩
    unfold TraceContext.from_traceparent
    simp only [hsplit]
    rw [if_neg (by simp)]
    unfold TraceId.from_hex
    rw [if_neg (by simp [ht32]), htb]
    unfold SpanId.from_hex
    rw [if_neg (by simp [hs16]), hsb]
    rw [hfv]

/-! ### Claims C5, C10, C2: store-level facts -/

theorem from_spans_spans_eq {spans : List Span} {tr : Trace}
    (h : Trace.from_spans spans = some tr) :
    tr.spans = sortSpans spans ∧
    tr.end_time = ((sortSpans spans).filterMap Span.end_time).max? := by
  unfold Trace.from_spans at h
  cases hs : sortSpans spans with
  | nil =>
    rw [hs] at h
    exact Option.noConfusion h
  | cons first rest =>
    simp only [hs] at h
    cases hf : (first :: rest).find? (fun s => s.parent_span_id.isNone) with
    | none =>
      rw [hf] at h
      exact Option.noConfusion h
    | some root =>
      rw [hf] at h
      have htr := Option.some.inj h
      rw [← htr]
      exact ⟨rfl, rfl⟩

theorem from_spans_spans_subset {spans : List Span} {tr : Trace}
    (h : Trace.from_spans spans = some tr) : ∀ x ∈ tr.spans, x ∈ spans := by
  intro x hx
  rw [(from_spans_spans_eq h).1] at hx
  exact mem_sortSpans.mp hx

theorem from_spans_no_root {spans : List Span}
    (h : ∀ s ∈ spans, s.parent_span_id ≠ none) :
    Trace.from_spans spans = none := by
  unfold Trace.from_spans
  cases hs : sortSpans spans with
  | nil => rfl
  | cons first rest =>
    have hfind :
        (first :: rest).find? (fun s => s.parent_span_id.isNone) = none := by
      rw [List.find?_eq_none]
      intro x hx
      have hx' : x ∈ spans := by
        rw [← mem_sortSpans (l := spans), hs]
        exact hx
      cases hpx : x.parent_span_id with
      | none => exact absurd hpx (h x hx')
      | some _ => simp [hpx]
    simp only [hfind]

theorem from_spans_of_root {spans : List Span} {r : Span}
    (hr : r ∈ spans) (hroot : r.parent_span_id = none) :
    ∃ tr, Trace.from_spans spans = some tr := by
  have hr' : r ∈ sortSpans spans := mem_sortSpans.mpr hr
  cases hs : sortSpans spans with
  | nil =>
    rw [hs] at hr'
    exact absurd hr' (List.not_mem_nil r)
  | cons first rest =>
    rw [hs] at hr'
    have hfind :
        ((first :: rest).find? (fun s => s.parent_span_id.isNone)).isSome
          = true := by
      rw [Option.isSome_iff_ne_none]
      intro hnone
      rw [List.find?_eq_none] at hnone
      exact hnone r hr' (by simp [hroot])
    obtain ⟨root, hfr⟩ := Option.isSome_iff_exists.mp hfind
    refine ⟨{ trace_id := first.trace_id, spans := first :: rest
              root_span_id := root.span_id, start_time := root.start_time
              end_time := ((first :: rest).filterMap Span.end_time).max? }, ?_⟩
    unfold Trace.from_spans
    simp only [hs, hfr]

theorem updateTrace_spans (st : StoreState) (tid : TraceId) :
    (updateTrace st tid).spans = st.spans := by
  unfold updateTrace
  by_cases he : (collectSpans st tid).isEmpty
  · rw [if_pos he]
  · rw [if_neg he]
    cases hfs : Trace.from_spans (collectSpans st tid) with
    | none => rfl
    | some trace => rfl

theorem updateTrace_events (st : StoreState) (tid : TraceId) :
    ∃ tail, (updateTrace st tid).events = st.events ++ tail := by
  unfold updateTrace
  by_cases he : (collectSpans st tid).isEmpty
  · rw [if_pos he]
    exact ⟨[], by simp⟩
  · rw [if_neg he]
    cases hfs : Trace.from_spans (collectSpans st tid) with
    | none => exact ⟨[], by simp⟩
    | some trace => exact ⟨completedEvents tid trace, rfl⟩

theorem ingestSpan_spans (st : StoreState) (s : Span) :
    (ingestSpan st s).spans = assocInsert s.span_id s st.spans := by
  unfold ingestSpan
  rw [updateTrace_spans]

theorem ingestSpan_events (st : StoreState) (s : Span) :
    ∃ tail, (ingestSpan st s).events = st.events ++ tail := by
  unfold ingestSpan
  obtain ⟨tail, htail⟩ := updateTrace_events
    { st with
      events := st.events ++ startedEvents st s
        ++ [TraceEvent.SpanAdded s.trace_id s]
      spans := assocInsert s.span_id s st.spans }
    s.trace_id
  refine ⟨startedEvents st s ++ [TraceEvent.SpanAdded s.trace_id s] ++ tail, ?_⟩
  rw [htail]
  simp

theorem countP_le_append {p : TraceEvent → Bool} {l : List TraceEvent}
    (tail : List TraceEvent) :
    l.countP p ≤ (l ++ tail).countP p := by
  rw [List.countP_append]
  omega

theorem ingestSpan_countP_mono (st : StoreState) (s : Span)
    (p : TraceEvent → Bool) :
    st.events.countP p ≤ (ingestSpan st s).events.countP p := by
  obtain ⟨tail, htail⟩ := ingestSpan_events st s
  rw [htail]
  exact countP_le_append tail

theorem foldl_ingest_countP_mono :
    ∀ (l : List Span) (st : StoreState) (p : TraceEvent → Bool),
      st.events.countP p ≤ ((l.foldl ingestSpan st).events.countP p) := by
  intro l
  induction l with
  | nil => intro st p; exact Nat.le_refl _
  | cons s rest ih =>
    intro st p
    rw [List.foldl_cons]
    exact Nat.le_trans (ingestSpan_countP_mono st s p) (ih _ p)

/-- No span stored anywhere in the state — neither in the span map nor
inside any stored trace — has the reserved service name. -/
def serverFree (st : StoreState) : Prop :=
  (∀ p ∈ st.spans, p.2.service_name ≠ "hindsight-server") ∧
  (∀ q ∈ st.traces, ∀ s ∈ q.2.spans, s.service_name ≠ "hindsight-server")

theorem mem_collectSpans {st : StoreState} {tid : TraceId} {x : Span}
    (hx : x ∈ collectSpans st tid) :
    ∃ k, (k, x) ∈ st.spans ∧ x.trace_id = tid := by
  unfold collectSpans at hx
  obtain ⟨p, hp, hpx⟩ := List.mem_map.mp hx
  obtain ⟨hpmem, hptid⟩ := List.mem_filter.mp hp
  subst hpx
  refine ⟨p.1, ?_, by simpa using hptid⟩
  exact hpmem

theorem updateTrace_serverFree {st : StoreState} {tid : TraceId}
    (h : serverFree st) : serverFree (updateTrace st tid) := by
  obtain ⟨h1, h2⟩ := h
  unfold updateTrace
  by_cases he : (collectSpans st tid).isEmpty
  · rw [if_pos he]
    exact ⟨h1, h2⟩
  rw [if_neg he]
  cases hfs : Trace.from_spans (collectSpans st tid) with
  | none => exact ⟨h1, h2⟩
  | some trace =>
    refine ⟨h1, ?_⟩
    intro q hq s hsq
    rcases mem_assocInsert hq with hnew | hold
    · have hsq' : s ∈ trace.spans := by
        rw [show q.2 = trace by rw [hnew]] at hsq
        exact hsq
      have hcol := from_spans_spans_subset hfs s hsq'
      obtain ⟨k, hk, -⟩ := mem_collectSpans hcol
      exact h1 (k, s) hk
    · exact h2 q hold s hsq

theorem ingestSpan_serverFree {st : StoreState} {s : Span}
    (h : serverFree st) (hs : s.service_name ≠ "hindsight-server") :
    serverFree (ingestSpan st s) := by
  obtain ⟨h1, h2⟩ := h
  unfold ingestSpan
  apply updateTrace_serverFree
  refine ⟨?_, h2⟩
  intro p hp
  rcases mem_assocInsert hp with hnew | hold
  · rw [show p.2 = s by rw [hnew]]
    exact hs
  · exact h1 p hold

theorem foldl_ingest_serverFree :
    ∀ (l : List Span) (st : StoreState), serverFree st →
      (∀ s ∈ l, s.service_name ≠ "hindsight-server") →
      serverFree (l.foldl ingestSpan st) := by
  intro l
  induction l with
  | nil => intro st h _; exact h
  | cons s rest ih =>
    intro st h hl
    rw [List.foldl_cons]
    exact ih _ (ingestSpan_serverFree h (hl s (List.mem_cons_self _ _)))
      (fun x hx => hl x (List.mem_cons_of_mem _ hx))

/-- C5: a span whose `service_name` is the reserved `"hindsight-server"`
never reaches the store through `ingest_spans`: starting from any
server-free store, the span map stays free of such spans, every stored
trace stays free of them, and any trace returned by `get_trace` contains
none. -/
theorem C5_server_spans_dropped (st : StoreState) (spans : List Span)
    (h : serverFree st) :
    serverFree (ingest_spans st spans).1 ∧
    (∀ tid tr, TraceStore.get_trace (ingest_spans st spans).1 tid = some tr →
      ∀ s ∈ tr.spans, s.service_name ≠ "hindsight-server") := by
  have hmain : serverFree (ingest_spans st spans).1 := by
    unfold ingest_spans TraceStore.ingest
    apply foldl_ingest_serverFree _ _ h
    intro s hsmem
    have := (List.mem_filter.mp hsmem).2
    simpa using this
  refine ⟨hmain, ?_⟩
  intro tid tr htr s hstr
  have hmem : (tid, tr) ∈ (ingest_spans st spans).1.traces :=
    assocFind_mem htr
  exact hmain.2 (tid, tr) hmem s hstr

/-- Witness for `C5_server_spans_dropped`: the empty store is server-free,
and ingesting the 3 + 2 example keeps the store server-free. -/
theorem C5_server_spans_dropped_witness :
    serverFree emptyStore ∧ serverFree (ingest_spans emptyStore exFiveSpans).1 := by
  have hempty : serverFree emptyStore := by
    constructor
    · intro p hp; exact absurd hp (List.not_mem_nil p)
    · intro q hq; exact absurd hq (List.not_mem_nil q)
  exact ⟨hempty, (C5_server_spans_dropped emptyStore exFiveSpans hempty).1⟩

theorem ingestAll_eq_foldl :
    ∀ (batches : List (List Span)) (st : StoreState),
      ingestAll st batches = batches.flatten.foldl ingestSpan st := by
  intro batches
  induction batches with
  | nil => intro st; rfl
  | cons b rest ih =>
    intro st
    show ingestAll (TraceStore.ingest st b).1 rest = _
    rw [ih]
    show (rest.flatten.foldl ingestSpan (b.foldl ingestSpan st)) = _
    rw [List.flatten_cons, List.foldl_append]

/-- The invariant behind C10: every stored span of the trace has a parent,
and the trace has no entry in the traces map. -/
def noTidRoot (tid : TraceId) (st : StoreState) : Prop :=
  (∀ p ∈ st.spans, p.2.trace_id = tid → p.2.parent_span_id ≠ none) ∧
  assocFind tid st.traces = none

theorem updateTrace_noTidRoot {tid : TraceId} {st : StoreState}
    (h : noTidRoot tid st) (tid' : TraceId) :
    noTidRoot tid (updateTrace st tid') := by
  obtain ⟨h1, h2⟩ := h
  unfold updateTrace
  by_cases he : (collectSpans st tid').isEmpty
  · rw [if_pos he]
    exact ⟨h1, h2⟩
  rw [if_neg he]
  by_cases htid : tid' = tid
  · subst htid
    have hnone : Trace.from_spans (collectSpans st tid') = none := by
      apply from_spans_no_root
      intro s hsmem
      obtain ⟨k, hk, hstid⟩ := mem_collectSpans hsmem
      exact h1 (k, s) hk hstid
    rw [hnone]
    exact ⟨h1, h2⟩
  · cases hfs : Trace.from_spans (collectSpans st tid') with
    | none => exact ⟨h1, h2⟩
    | some trace =>
      refine ⟨h1, ?_⟩
      show assocFind tid (assocInsert tid' trace st.traces) = none
      rw [assocFind_insert_ne _ _ htid]
      exact h2

theorem ingestSpan_noTidRoot {tid : TraceId} {st : StoreState} {s : Span}
    (h : noTidRoot tid st)
    (hs : s.trace_id = tid → s.parent_span_id ≠ none) :
    noTidRoot tid (ingestSpan st s) := by
  obtain ⟨h1, h2⟩ := h
  unfold ingestSpan
  apply updateTrace_noTidRoot
  refine ⟨?_, h2⟩
  intro p hp htid
  rcases mem_assocInsert hp with hnew | hold
  · rw [show p.2 = s by rw [hnew]] at htid ⊢
    exact hs htid
  · exact h1 p hold htid

theorem foldl_ingest_noTidRoot {tid : TraceId} :
    ∀ (l : List Span) (st : StoreState), noTidRoot tid st →
      (∀ s ∈ l, s.trace_id = tid → s.parent_span_id ≠ none) →
      noTidRoot tid (l.foldl ingestSpan st) := by
  intro l
  induction l with
  | nil => intro st h _; exact h
  | cons s rest ih =>
    intro st h hl
    rw [List.foldl_cons]
    exact ih _ (ingestSpan_noTidRoot h (hl s (List.mem_cons_self _ _)))
      (fun x hx => hl x (List.mem_cons_of_mem _ hx))

/-- C10: a traces-map entry for a trace ID exists only if some ingested
span with that ID was parentless: after any sequence of ingest calls on a
fresh store in which every span with the given `trace_id` carries a
parent, `get_trace` on that ID returns `none` (and the traces map has no
entry for it). -/
theorem C10_no_root_no_trace (batches : List (List Span)) (tid : TraceId)
    (h : ∀ b ∈ batches, ∀ s ∈ b, s.trace_id = tid → s.parent_span_id ≠ none) :
    TraceStore.get_trace (ingestAll emptyStore batches) tid = none := by
  rw [ingestAll_eq_foldl]
  have hflat : ∀ s ∈ batches.flatten, s.trace_id = tid →
      s.parent_span_id ≠ none := by
    intro s hsmem
    obtain ⟨b, hb, hsb⟩ := List.mem_flatten.mp hsmem
    exact h b hb s hsb
  have hempty : noTidRoot tid emptyStore := by
    constructor
    · intro p hp; exact absurd hp (List.not_mem_nil p)
    · rfl
  exact (foldl_ingest_noTidRoot batches.flatten emptyStore hempty hflat).2

/-- Witness for `C10_no_root_no_trace`: ingesting only the child span of
the example trace leaves `get_trace` at `none`. -/
theorem C10_no_root_no_trace_witness :
    (∀ b ∈ [[exChildSpan]], ∀ s ∈ b, s.trace_id = exTraceId →
      s.parent_span_id ≠ none) ∧
    TraceStore.get_trace (ingestAll emptyStore [[exChildSpan]]) exTraceId
      = none := by
  refine ⟨by decide, ?_⟩
  exact C10_no_root_no_trace [[exChildSpan]] exTraceId (by decide)

theorem ingestSpan_completes {st : StoreState} {s : Span}
    (hEnd : ∀ p ∈ st.spans, p.2.trace_id = s.trace_id →
      p.2.end_time.isSome = true)
    (hsroot : s.parent_span_id = none)
    (hsend : s.end_time.isSome = true) :
    st.events.countP (isCompletedFor s.trace_id) + 1
      ≤ (ingestSpan st s).events.countP (isCompletedFor s.trace_id) := by
  unfold ingestSpan
  set st2 : StoreState :=
    { st with
      events := st.events ++ startedEvents st s
        ++ [TraceEvent.SpanAdded s.trace_id s]
      spans := assocInsert s.span_id s st.spans } with hst2
  have hsmem : s ∈ collectSpans st2 s.trace_id := by
    unfold collectSpans
    apply List.mem_map.mpr
    refine ⟨(s.span_id, s), ?_, rfl⟩
    apply List.mem_filter.mpr
    refine ⟨?_, by simp⟩
    show (s.span_id, s) ∈ assocInsert s.span_id s st.spans
    unfold assocInsert
    exact List.mem_cons_self _ _
  have hEnd2 : ∀ x ∈ collectSpans st2 s.trace_id, x.end_time.isSome = true := by
    intro x hx
    obtain ⟨k, hk, hxtid⟩ := mem_collectSpans hx
    rcases mem_assocInsert hk with hnew | hold
    · injection hnew with h1 h2
      rw [h2]
      exact hsend
    · exact hEnd (k, x) hold hxtid
  have hne : (collectSpans st2 s.trace_id).isEmpty = false := by
    cases hcol : collectSpans st2 s.trace_id with
    | nil =>
      rw [hcol] at hsmem
      exact absurd hsmem (List.not_mem_nil s)
    | cons a l => rfl
  obtain ⟨trace, htrace⟩ := from_spans_of_root hsmem hsroot
  have hspans := (from_spans_spans_eq htrace).1
  have hendeq := (from_spans_spans_eq htrace).2
  have hall : trace.spans.all (fun x => x.end_time.isSome) = true := by
    rw [List.all_eq_true]
    intro x hx
    rw [hspans] at hx
    exact hEnd2 x (mem_sortSpans.mp hx)
  have hendsome : trace.end_time.isSome = true := by
    rw [hendeq]
    obtain ⟨e, he⟩ := Option.isSome_iff_exists.mp hsend
    have hmemf : e ∈ (sortSpans (collectSpans st2 s.trace_id)).filterMap
        Span.end_time :=
      List.mem_filterMap.mpr ⟨s, mem_sortSpans.mpr hsmem, he⟩
    rw [Option.isSome_iff_ne_none]
    intro hnone
    rw [List.max?_eq_none_iff] at hnone
    rw [hnone] at hmemf
    exact absurd hmemf (List.not_mem_nil e)
  obtain ⟨e, he⟩ := Option.isSome_iff_exists.mp hendsome
  have hcomp : completedEvents s.trace_id trace
      = [TraceEvent.TraceCompleted s.trace_id (u64sub e trace.start_time)
          trace.spans.length] := by
    unfold completedEvents
    rw [hendsome, hall, he]
    rfl
  unfold updateTrace
  rw [if_neg (by rw [hne]; simp)]
  simp only [htrace]
  show st.events.countP (isCompletedFor s.trace_id) + 1
    ≤ (st2.events ++ completedEvents s.trace_id trace).countP
        (isCompletedFor s.trace_id)
  rw [hcomp, List.countP_append]
  have h1e : List.countP (isCompletedFor s.trace_id)
      [TraceEvent.TraceCompleted s.trace_id (u64sub e trace.start_time)
        trace.spans.length] = 1 := by
    simp [List.countP_cons, isCompletedFor]
  rw [h1e]
  have hmono : st.events.countP (isCompletedFor s.trace_id)
      ≤ st2.events.countP (isCompletedFor s.trace_id) := by
    show st.events.countP (isCompletedFor s.trace_id)
      ≤ (st.events ++ startedEvents st s
          ++ [TraceEvent.SpanAdded s.trace_id s]).countP
            (isCompletedFor s.trace_id)
    rw [List.countP_append, List.countP_append]
    omega
  omega

theorem ingestSpan_endInvariant {tid : TraceId} {st : StoreState} {s : Span}
    (hEnd : ∀ p ∈ st.spans, p.2.trace_id = tid → p.2.end_time.isSome = true)
    (hs : s.trace_id = tid → s.end_time.isSome = true) :
    ∀ p ∈ (ingestSpan st s).spans, p.2.trace_id = tid →
      p.2.end_time.isSome = true := by
  intro p hp htid
  rw [ingestSpan_spans] at hp
  rcases mem_assocInsert hp with hnew | hold
  · rw [show p.2 = s by rw [hnew]] at htid ⊢
    exact hs htid
  · exact hEnd p hold htid

theorem foldl_ingest_completes {tid : TraceId} :
    ∀ (l : List Span) (st : StoreState),
      (∀ p ∈ st.spans, p.2.trace_id = tid → p.2.end_time.isSome = true) →
      (∀ s ∈ l, s.trace_id = tid → s.end_time.isSome = true) →
      (∃ s ∈ l, s.trace_id = tid ∧ s.parent_span_id = none) →
      st.events.countP (isCompletedFor tid) + 1
        ≤ ((l.foldl ingestSpan st).events.countP (isCompletedFor tid)) := by
  intro l
  induction l with
  | nil =>
    intro st _ _ hex
    obtain ⟨s, hs, -⟩ := hex
    exact absurd hs (List.not_mem_nil s)
  | cons s rest ih =>
    intro st hEnd hl hex
    rw [List.foldl_cons]
    by_cases hroot : s.trace_id = tid ∧ s.parent_span_id = none
    · obtain ⟨hstid, hsroot⟩ := hroot
      have hsend : s.end_time.isSome = true :=
        hl s (List.mem_cons_self _ _) hstid
      have hstep := ingestSpan_completes (s := s)
        (by rw [hstid]; exact hEnd) hsroot hsend
      rw [hstid] at hstep
      have hmono := foldl_ingest_countP_mono rest (ingestSpan st s)
        (isCompletedFor tid)
      omega
    · have hex' : ∃ x ∈ rest, x.trace_id = tid ∧ x.parent_span_id = none := by
        obtain ⟨x, hx, hxprop⟩ := hex
        rcases List.mem_cons.mp hx with h1 | h1
        · subst h1
          exact absurd hxprop hroot
        · exact ⟨x, h1, hxprop⟩
      have hEnd' := ingestSpan_endInvariant hEnd
        (fun h => hl s (List.mem_cons_self _ _) h)
      have hstep := ih (ingestSpan st s) hEnd'
        (fun x hx => hl x (List.mem_cons_of_mem _ hx)) hex'
      have hmono := ingestSpan_countP_mono st s (isCompletedFor tid)
      omega

/-- C2 counterexample: ingesting the finished root span and then the
finished child span of one trace — in a single `ingest` call — publishes
`TraceCompleted` twice for that trace (once when the root alone forms a
complete trace, once after the child arrives), so "exactly once" fails. -/
theorem C2_completed_twice_cx :
    ((TraceStore.ingest emptyStore [exRootSpan, exChildSpan]).1.events.countP
      (isCompletedFor exTraceId)) = 2 := by
  decide

/-- C2 (amended): after any sequence of ingest calls on a fresh store
that together deliver all spans of a trace — every span of that trace
carrying an `end_time`, at least one of them parentless — a
`TraceCompleted` for that trace is published at least once; it can be
published more than once (once per ingested span at which the stored span
set of the trace is complete). -/
theorem C2_completed_at_least_once (batches : List (List Span))
    (tid : TraceId)
    (hall : ∀ s ∈ batches.flatten, s.trace_id = tid →
      s.end_time.isSome = true)
    (hroot : ∃ s ∈ batches.flatten, s.trace_id = tid ∧
      s.parent_span_id = none) :
    1 ≤ ((ingestAll emptyStore batches).events.countP
      (isCompletedFor tid)) := by
  rw [ingestAll_eq_foldl]
  have h := foldl_ingest_completes batches.flatten emptyStore
    (by intro p hp; exact absurd hp (List.not_mem_nil p)) hall hroot
  have hz : (emptyStore.events.countP (isCompletedFor tid)) = 0 := rfl
  omega

/-- Witness for `C2_completed_at_least_once`: root and child arrive in two
separate ingest calls. -/
theorem C2_completed_at_least_once_witness :
    (∀ s ∈ ([[exRootSpan], [exChildSpan]] : List (List Span)).flatten,
      s.trace_id = exTraceId → s.end_time.isSome = true) ∧
    (∃ s ∈ ([[exRootSpan], [exChildSpan]] : List (List Span)).flatten,
      s.trace_id = exTraceId ∧ s.parent_span_id = none) ∧
    1 ≤ ((ingestAll emptyStore [[exRootSpan], [exChildSpan]]).events.countP
      (isCompletedFor exTraceId)) := by
  refine ⟨by decide, by decide, ?_⟩
  exact C2_completed_at_least_once [[exRootSpan], [exChildSpan]] exTraceId
    (by decide) (by decide)
